import Mathlib

/-!
# Verification of the Markov repository (`src/Markov.ipynb`)

The source is a small Python notebook with two classes:

* `WeightMap(defaultdict)` — keys with integer weights (`defaultdict(int)`,
  so an absent key reads as 0, but reading it through `__getitem__` inserts
  it), and `__call__` draws one key weighted by `random.choices`.
* `MarkovNode(WeightMap)` — a graph node: `data` payload plus the inherited
  weight map whose keys are (references to) other nodes.  `find` scans a
  node list for a node with given `data` (optionally appending a fresh one),
  `inc` is one training step, and `__iter__` is the random walk that yields
  payloads until it reaches a node with no children.

Embedding choices, each mirroring the source:

* The Python `nodes` list is an arena `List (MarkovNode κ)`; a node
  reference is its index (nodes are only ever appended, so indices are
  stable).  Edge maps are insertion-ordered association lists
  `List (Nat × Nat)` from child index to weight, mirroring Python dicts
  (insertion-ordered, unique keys).
* Weights and increments are `Nat`: the spec fixes the weight domain to
  non-negative integers and declares a negative increment a caller
  contract violation, and the notebook only ever adds 1.
* `random.choices(keys, weights)` draws a uniform real `x ∈ [0, total)`
  and picks the first key whose cumulative weight exceeds `x`; with
  integer weights the choice depends only on `⌊x⌋`, so the random draw is
  modelled as a natural number reduced mod the total.  `choices` raises
  (`IndexError` on an empty population, `ValueError` when the total weight
  is zero); both failures are the spec's `EmptyDistribution` error and are
  modelled as `Except.error "EmptyDistribution"`.
* The walk `__iter__` consumes one random draw per step and may diverge on
  a weighted cycle; it is modelled with an explicit finite stream of draws,
  exhaustion of the stream being the (never "ok") `"Nonterminating"` case.
-/

set_option linter.unusedSectionVars false

namespace Markov

variable {κ : Type} [DecidableEq κ] {α : Type} [DecidableEq α]

/-- One node of the graph: the `data` payload together with the inherited
weight map over child nodes.  Edge keys are arena indices of child nodes
(the Python dict is keyed by the node objects held in the `nodes` list). -/
structure MarkovNode (κ : Type) where
  data : κ
  edges : List (Nat × Nat)
deriving DecidableEq, Repr

/-- First stored weight for a key in an association list, if present
(Python dict lookup; keys are unique in any map the code builds). -/
def lookupW : List (α × Nat) → α → Option Nat
  | [], _ => none
  | (k, w) :: rest, j => if k = j then some w else lookupW rest j

/-- The stored weight of a key, 0 when absent: what reading the
`defaultdict(int)` yields for the key (its value semantics, ignoring the
insertion side effect of `__getitem__`, which `getItem` below models). -/
def getWeight (wm : List (α × Nat)) (j : α) : Nat :=
  (lookupW wm j).getD 0

/-- `defaultdict.__getitem__`: returns the stored weight, or inserts the
key with the default weight 0 and returns 0 when the key is absent.
Returns the (possibly grown) mapping together with the value read. -/
def getItem (wm : List (α × Nat)) (j : α) : List (α × Nat) × Nat :=
  match lookupW wm j with
  | some w => (wm, w)
  | none => (wm ++ [(j, 0)], 0)

/-- `d[k] = w`: overwrite the weight of a present key in place, append the
key at the end otherwise (Python dicts keep insertion order). -/
def setWeight : List (α × Nat) → α → Nat → List (α × Nat)
  | [], j, w => [(j, w)]
  | (k, v) :: rest, j, w => if k = j then (j, w) :: rest else (k, v) :: setWeight rest j w

/-- `self[childNode] += increment` on a `defaultdict(int)`: a `__getitem__`
(which inserts the key at weight 0 when absent) followed by a
`__setitem__` of the old value plus the increment. -/
def incEdge (wm : List (α × Nat)) (j : α) (inc : Nat) : List (α × Nat) :=
  let gi := getItem wm j
  setWeight gi.1 j (gi.2 + inc)

/-- Total of the stored weights: `sum(self.values())`, the total weight of
`random.choices`. -/
def totalWeight (wm : List (α × Nat)) : Nat :=
  (wm.map (fun p => p.2)).sum

/-- The selection step of `random.choices`: given the integer part `r` of
the uniform draw in `[0, total)`, return the first key whose cumulative
weight exceeds `r` (the `bisect` over the accumulated weights). -/
def pick : List (α × Nat) → Nat → Option α
  | [], _ => none
  | (k, w) :: rest, r => if r < w then some k else pick rest (r - w)

/-- `WeightMap.__call__`: one weighted draw via
`choices(list(self.keys()), list(self.values()))[0]`.  `r` is the random
draw, reduced mod the total weight (every outcome in `[0, total)` is
reachable).  When the total weight is zero — no keys, or all weights
zero — `choices` raises; this is the spec's `EmptyDistribution` error. -/
def sample (wm : List (α × Nat)) (r : Nat) : Except String α :=
  if totalWeight wm = 0 then
    .error "EmptyDistribution"
  else
    match pick wm (r % totalWeight wm) with
    | some k => .ok k
    | none => .error "EmptyDistribution"

/-- `next((node for node in nodes if node.data==data), None)` — the index
of the first node in the arena whose `data` equals the given payload (an
index models the returned reference). -/
def findIdxD : List (MarkovNode κ) → κ → Option Nat
  | [], _ => none
  | n :: rest, p => if n.data = p then some 0 else (findIdxD rest p).map (· + 1)

/-- `MarkovNode.find(nodes, data, add)`: return (a reference to) the first
node with the given payload; when absent, either append a fresh node with
empty edges (`add=True`) or raise `KeyError` (`add=False`).  The result is
the updated arena together with the index of the returned node. -/
def find (nodes : List (MarkovNode κ)) (p : κ) (add : Bool) :
    Except String (List (MarkovNode κ) × Nat) :=
  match findIdxD nodes p with
  | some i => .ok (nodes, i)
  | none =>
    if add then .ok (nodes ++ [⟨p, []⟩], nodes.length)
    else .error "KeyError"

/-- `find` with `add=True`, which never raises: the find-or-create lookup
(same body as the `add=True` path of `find`; `find_add_true` below ties the
two together). -/
def findOrCreate (nodes : List (MarkovNode κ)) (p : κ) : List (MarkovNode κ) × Nat :=
  match findIdxD nodes p with
  | some i => (nodes, i)
  | none => (nodes ++ [⟨p, []⟩], nodes.length)

/-- Replace the element at an index by applying `f`, leaving the list
unchanged when the index is out of range (in the source `self` is always a
node held in `nodes`, so the index is in range in every actual call). -/
def modifyIdx : List (MarkovNode κ) → Nat → (MarkovNode κ → MarkovNode κ) → List (MarkovNode κ)
  | [], _, _ => []
  | n :: rest, 0, f => f n :: rest
  | n :: rest, i + 1, f => n :: modifyIdx rest i f

/-- `MarkovNode.inc(self, nodes, childData, increment)`: resolve the child
by `find(nodes, childData, True)` (possibly appending it), then
`self[childNode] += increment` on the calling node's weight map, and
return the child reference.  `i` is the index of `self` in the arena. -/
def inc (nodes : List (MarkovNode κ)) (i : Nat) (childData : κ) (increment : Nat := 1) :
    List (MarkovNode κ) × Nat :=
  let fc := findOrCreate nodes childData
  (modifyIdx fc.1 i (fun n => ⟨n.data, incEdge n.edges fc.2 increment⟩), fc.2)

/-- The weight of the edge from node `i` to node `j`, 0 when `i` is out of
range or the edge is absent. -/
def edgeWeight (nodes : List (MarkovNode κ)) (i j : Nat) : Nat :=
  match nodes[i]? with
  | some n => getWeight n.edges j
  | none => 0

/-- `MarkovNode.__iter__`: the random walk.  While the current node has
children (`while node:` — dict truthiness, i.e. a non-empty edge map even
if all weights are zero) yield its payload and draw the next node with one
fresh weighted draw (`node = node()`); after the loop yield the terminal
node's payload.  `rs` is the stream of random draws, one consumed per
step; an exhausted stream is the `"Nonterminating"` case (the Python
generator would keep drawing — a finite stream observes finitely many
draws).  An out-of-range index cannot arise from walks started in the
arena, since every edge key is an index of a node in the arena. -/
def iterFrom (nodes : List (MarkovNode κ)) : Nat → List Nat → Except String (List κ)
  | i, rs =>
    match nodes[i]? with
    | none => .error "IndexError"
    | some node =>
      if node.edges.isEmpty then
        .ok [node.data]
      else
        match rs with
        | [] => .error "Nonterminating"
        | r :: rs' =>
          match sample node.edges r with
          | .error e => .error e
          | .ok j =>
            match iterFrom nodes j rs' with
            | .error e => .error e
            | .ok rest => .ok (node.data :: rest)

/-- `__hash__` of a `MarkovNode`: `hash(self.data)`.  The Python hash of
the payload is abstracted as an arbitrary function `h` of the payload; the
node's hash depends on nothing but `data`. -/
def nodeHash (h : κ → Int) (n : MarkovNode κ) : Int := h n.data

/-- Keys of a weight map are pairwise distinct — the invariant of every
Python dict, which cannot hold a key twice. -/
def nodupKeys (wm : List (α × Nat)) : Prop := (wm.map Prod.fst).Nodup

/-- Python `dict.__eq__` on two weight maps: equal lengths, and every
key/value pair of the first is found in the second (dict keys are
unique, so this is mutual inclusion).  Keys — node references in the edge
maps — compare by arena index, CPython's identity fast path for dict
lookups. -/
def dictEq (d1 d2 : List (α × Nat)) : Bool :=
  d1.length == d2.length && d1.all (fun p => lookupW d2 p.1 == some p.2)

/-- Equality of two `MarkovNode`s as Python evaluates it: the class
overrides `__hash__` but not `__eq__`, so `n1 == n2` is the inherited
mapping equality of the edge maps — the payloads take no part in it. -/
def markovNodeEq (n1 n2 : MarkovNode κ) : Bool := dictEq n1.edges n2.edges

/-- The training string of the notebook's test cell, one single-character
token per character. -/
def training : List String :=
  "abababbbabababbbababaaaababababababa\n".toList.map (fun c => String.mk [c])

/-- The notebook's training loop: `node = nodes[0]` then
`for c in training: node = node.inc(nodes, c)` — each step trains one
observed transition and moves the cursor to the child. -/
def trainAll : List (MarkovNode String) → Nat → List String → List (MarkovNode String)
  | nodes, _, [] => nodes
  | nodes, i, c :: cs =>
    let st := inc nodes i c 1
    trainAll st.1 st.2 cs

/-- The graph built by the notebook's test cell: train `training` starting
from the single start node with payload `""`. -/
def finalGraph : List (MarkovNode String) := trainAll [⟨"", []⟩] 0 training

/-- The number of occurrences of the transition `a → b` in the training
data: adjacent pairs of the token sequence prefixed by the start payload
`""`. -/
def transitionCount (a b : String) : Nat :=
  (("" :: training).zip training).count (a, b)

/-- The payloads of the four nodes the test-cell training produces, in
arena order. -/
def payload : Fin 4 → String
  | 0 => ""
  | 1 => "a"
  | 2 => "b"
  | 3 => "\n"

/-- One graph-building operation: the two mutating entry points of
training, `find(…, add=True)` on a payload and `inc` from a node index. -/
inductive TrainOp (κ : Type) where
  | forc (p : κ)
  | step (i : Nat) (p : κ) (amount : Nat)

/-- Apply one training operation to the arena, keeping only the arena (the
returned references play no role in the node-uniqueness invariant). -/
def applyOp (nodes : List (MarkovNode κ)) : TrainOp κ → List (MarkovNode κ)
  | .forc p => (findOrCreate nodes p).1
  | .step i p a => (inc nodes i p a).1

/-- Apply a sequence of training operations left to right. -/
def applyOps (nodes : List (MarkovNode κ)) : List (TrainOp κ) → List (MarkovNode κ)
  | [] => nodes
  | op :: ops => applyOps (applyOp nodes op) ops

/-! ## Association-list lemmas for the weight maps -/

theorem lookupW_append_of_none {d1 : List (α × Nat)} {k : α} (d2 : List (α × Nat))
    (h : lookupW d1 k = none) : lookupW (d1 ++ d2) k = lookupW d2 k := by
  induction d1 with
  | nil => simp
  | cons p rest ih =>
    obtain ⟨a, w⟩ := p
    by_cases hak : a = k <;> simp_all [lookupW]

theorem lookupW_append_of_some {d1 : List (α × Nat)} {k : α} {w : Nat} (d2 : List (α × Nat))
    (h : lookupW d1 k = some w) : lookupW (d1 ++ d2) k = some w := by
  induction d1 with
  | nil => simp [lookupW] at h
  | cons p rest ih =>
    obtain ⟨a, v⟩ := p
    by_cases hak : a = k <;> simp_all [lookupW]

theorem lookupW_setWeight_self (d : List (α × Nat)) (j : α) (w : Nat) :
    lookupW (setWeight d j w) j = some w := by
  induction d with
  | nil => simp [setWeight, lookupW]
  | cons p rest ih =>
    obtain ⟨a, v⟩ := p
    by_cases haj : a = j <;> simp_all [setWeight, lookupW]

theorem lookupW_setWeight_ne (d : List (α × Nat)) {j k : α} (w : Nat) (hkj : k ≠ j) :
    lookupW (setWeight d j w) k = lookupW d k := by
  induction d with
  | nil => simp [setWeight, lookupW, hkj, Ne.symm hkj]
  | cons p rest ih =>
    obtain ⟨a, v⟩ := p
    by_cases haj : a = j
    · subst haj
      simp [setWeight, lookupW, Ne.symm hkj, hkj]
    · by_cases hak : a = k <;> simp_all [setWeight, lookupW]

theorem lookupW_some_mem {d : List (α × Nat)} {k : α} {w : Nat}
    (h : lookupW d k = some w) : (k, w) ∈ d := by
  induction d with
  | nil => simp [lookupW] at h
  | cons p rest ih =>
    obtain ⟨a, v⟩ := p
    by_cases hak : a = k <;> simp_all [lookupW]

theorem lookupW_eq_none_iff {d : List (α × Nat)} {k : α} :
    lookupW d k = none ↔ k ∉ d.map Prod.fst := by
  induction d with
  | nil => simp [lookupW]
  | cons p rest ih =>
    obtain ⟨a, v⟩ := p
    by_cases hak : a = k <;> simp_all [lookupW, eq_comm]

theorem lookupW_of_mem_nodup {d : List (α × Nat)} {k : α} {w : Nat}
    (hd : nodupKeys d) (h : (k, w) ∈ d) : lookupW d k = some w := by
  induction d with
  | nil => simp at h
  | cons p rest ih =>
    obtain ⟨a, v⟩ := p
    simp only [nodupKeys, List.map_cons, List.nodup_cons] at hd
    rcases List.mem_cons.mp h with h1 | h1
    · obtain ⟨rfl, rfl⟩ := Prod.mk.injEq .. ▸ h1
      simp [lookupW]
    · have hak : a ≠ k := by
        rintro rfl
        exact hd.1 (List.mem_map.mpr ⟨(a, w), h1, rfl⟩)
      simp [lookupW, hak, ih hd.2 h1]

theorem getWeight_incEdge_self (d : List (α × Nat)) (j : α) (a : Nat) :
    getWeight (incEdge d j a) j = getWeight d j + a := by
  unfold incEdge getItem
  cases h : lookupW d j with
  | some w => simp [getWeight, lookupW_setWeight_self, h]
  | none => simp [getWeight, lookupW_setWeight_self, h]

/-! ## Lemmas about the weighted draw -/

theorem totalWeight_eq_zero_iff (wm : List (α × Nat)) :
    totalWeight wm = 0 ↔ ∀ p ∈ wm, p.2 = 0 := by
  induction wm with
  | nil => simp [totalWeight]
  | cons p rest ih => simp_all [totalWeight, Nat.add_eq_zero]

theorem pick_mem_pos {l : List (α × Nat)} {r : Nat} {k : α}
    (h : pick l r = some k) : ∃ w, (k, w) ∈ l ∧ 0 < w := by
  induction l generalizing r with
  | nil => simp [pick] at h
  | cons p rest ih =>
    obtain ⟨a, w⟩ := p
    by_cases hr : r < w
    · simp only [pick, if_pos hr, Option.some.injEq] at h
      exact ⟨w, by simp [h], Nat.lt_of_le_of_lt (Nat.zero_le r) hr⟩
    · simp only [pick, if_neg hr] at h
      obtain ⟨w', hmem, hw⟩ := ih h
      exact ⟨w', by simp [hmem], hw⟩

theorem pick_isSome_of_lt {l : List (α × Nat)} {r : Nat}
    (h : r < totalWeight l) : (pick l r).isSome := by
  induction l generalizing r with
  | nil => simp [totalWeight] at h
  | cons p rest ih =>
    obtain ⟨a, w⟩ := p
    by_cases hr : r < w
    · simp [pick, hr]
    · have hw : w ≤ r := Nat.le_of_not_lt hr
      have : r - w < totalWeight rest := by
        simp only [totalWeight, List.map_cons, List.sum_cons] at h ⊢
        omega
      simp [pick, hr, ih this]

theorem pick_append_of_lt {l : List (α × Nat)} {r : Nat} (l2 : List (α × Nat))
    (h : r < totalWeight l) : pick (l ++ l2) r = pick l r := by
  induction l generalizing r with
  | nil => simp [totalWeight] at h
  | cons p rest ih =>
    obtain ⟨a, w⟩ := p
    by_cases hr : r < w
    · simp [pick, hr]
    · have : r - w < totalWeight rest := by
        simp only [totalWeight, List.map_cons, List.sum_cons] at h ⊢
        omega
      simp [pick, hr, ih this]

/-! ## Lemmas about the node lookup and the arena -/

theorem findIdxD_eq_none_iff {nodes : List (MarkovNode κ)} {p : κ} :
    findIdxD nodes p = none ↔ ∀ n ∈ nodes, n.data ≠ p := by
  induction nodes with
  | nil => simp [findIdxD]
  | cons n rest ih =>
    by_cases hd : n.data = p <;> simp_all [findIdxD]

theorem findIdxD_some_spec {nodes : List (MarkovNode κ)} {p : κ} {i : Nat}
    (h : findIdxD nodes p = some i) : ∃ n, nodes[i]? = some n ∧ n.data = p := by
  induction nodes generalizing i with
  | nil => simp [findIdxD] at h
  | cons n rest ih =>
    by_cases hd : n.data = p
    · simp only [findIdxD, if_pos hd, Option.some.injEq] at h
      exact ⟨n, by simp [← h], hd⟩
    · simp only [findIdxD, if_neg hd, Option.map_eq_some'] at h
      obtain ⟨i', hi', rfl⟩ := h
      obtain ⟨m, hm, hmd⟩ := ih hi'
      exact ⟨m, by simpa using hm, hmd⟩

theorem findIdxD_congr {ns ms : List (MarkovNode κ)}
    (h : ns.map (fun n => n.data) = ms.map (fun n => n.data)) (p : κ) :
    findIdxD ns p = findIdxD ms p := by
  induction ns generalizing ms with
  | nil =>
    cases ms with
    | nil => rfl
    | cons m mrest => simp at h
  | cons n rest ih =>
    cases ms with
    | nil => simp at h
    | cons m mrest =>
      simp only [List.map_cons, List.cons.injEq] at h
      simp [findIdxD, h.1, ih h.2]

theorem findIdxD_append_of_none {ns : List (MarkovNode κ)} {p : κ}
    (h : findIdxD ns p = none) (e : List (Nat × Nat)) :
    findIdxD (ns ++ [⟨p, e⟩]) p = some ns.length := by
  induction ns with
  | nil => simp [findIdxD]
  | cons n rest ih =>
    by_cases hd : n.data = p <;> simp_all [findIdxD]

theorem modifyIdx_map_data (ns : List (MarkovNode κ)) (i : Nat)
    (f : MarkovNode κ → MarkovNode κ) (hf : ∀ n, (f n).data = n.data) :
    (modifyIdx ns i f).map (fun n => n.data) = ns.map (fun n => n.data) := by
  induction ns generalizing i with
  | nil => rfl
  | cons n rest ih =>
    cases i with
    | zero => simp [modifyIdx, hf]
    | succ i' => simp [modifyIdx, ih]

theorem getElem?_modifyIdx_self (ns : List (MarkovNode κ)) (i : Nat)
    (f : MarkovNode κ → MarkovNode κ) :
    (modifyIdx ns i f)[i]? = (ns[i]?).map f := by
  induction ns generalizing i with
  | nil => simp [modifyIdx]
  | cons n rest ih =>
    cases i with
    | zero => simp [modifyIdx]
    | succ i' => simpa [modifyIdx] using ih i'

theorem findIdxD_findOrCreate (ns : List (MarkovNode κ)) (p : κ) :
    findIdxD (findOrCreate ns p).1 p = some (findOrCreate ns p).2 := by
  unfold findOrCreate
  cases h : findIdxD ns p with
  | some i => simpa [h] using h
  | none => simp [h, findIdxD_append_of_none h]

theorem findOrCreate_getElem?_lt {ns : List (MarkovNode κ)} {i : Nat} (p : κ)
    (h : i < ns.length) : (findOrCreate ns p).1[i]? = ns[i]? := by
  unfold findOrCreate
  cases hf : findIdxD ns p with
  | some j => rfl
  | none => simp [List.getElem?_append, h]

theorem nodup_data_findOrCreate {ns : List (MarkovNode κ)}
    (h : (ns.map (fun n => n.data)).Nodup) (p : κ) :
    ((findOrCreate ns p).1.map (fun n => n.data)).Nodup := by
  unfold findOrCreate
  cases hf : findIdxD ns p with
  | some i => exact h
  | none =>
    have hp : p ∉ ns.map (fun n => n.data) := by
      intro hmem
      obtain ⟨n, hn, hnd⟩ := List.mem_map.mp hmem
      exact (findIdxD_eq_none_iff.mp hf n hn) hnd
    simp [List.nodup_append, h, hp]

theorem nodup_data_inc {ns : List (MarkovNode κ)}
    (h : (ns.map (fun n => n.data)).Nodup) (i : Nat) (p : κ) (a : Nat) :
    ((inc ns i p a).1.map (fun n => n.data)).Nodup := by
  simp only [inc]
  rw [modifyIdx_map_data _ _ _ (fun n => rfl : ∀ n : MarkovNode κ,
    (MarkovNode.mk n.data (incEdge n.edges (findOrCreate ns p).2 a)).data = n.data)]
  exact nodup_data_findOrCreate h p

theorem findOrCreate_eq_of_findIdxD {ns : List (MarkovNode κ)} {p : κ} {i : Nat}
    (h : findIdxD ns p = some i) : findOrCreate ns p = (ns, i) := by
  unfold findOrCreate
  rw [h]

theorem find_add_true (ns : List (MarkovNode κ)) (p : κ) :
    find ns p true = .ok (findOrCreate ns p) := by
  unfold find findOrCreate
  cases findIdxD ns p <;> rfl

/-! ## Claim theorems -/

/-- C1: Training the character sequence
`"abababbbabababbbababaaaababababababa\n"` left to right, starting from a
graph containing only a start node with payload `""` and calling `inc`
once per character, produces a graph with exactly 4 nodes whose payloads
are `""`, `"a"`, `"b"`, `"\n"`, and every edge weight equals the count of
that transition in the training string — in particular node `"a"` has
edge weight 14 to `"b"`, 3 to `"a"` and 1 to `"\n"`. -/
theorem trained_graph_matches_counts :
    finalGraph.map (fun n => n.data) = ["", "a", "b", "\n"] ∧
    finalGraph.length = 4 ∧
    (∀ i j : Fin 4, edgeWeight finalGraph (i : Nat) (j : Nat) =
      transitionCount (payload i) (payload j)) ∧
    edgeWeight finalGraph 1 2 = 14 ∧
    edgeWeight finalGraph 1 1 = 3 ∧
    edgeWeight finalGraph 1 3 = 1 := by
  decide

/-- C3: Calling find-or-create (`MarkovNode.find` with `add=True`) twice
with the same payload returns the same node both times — same index, with
the arena unchanged by the second call — the arena grows by at most one
node across the two calls, and the returned index holds a node carrying
the requested payload. -/
theorem findOrCreate_idempotent (nodes : List (MarkovNode κ)) (p : κ) :
    (findOrCreate (findOrCreate nodes p).1 p).2 = (findOrCreate nodes p).2 ∧
    (findOrCreate (findOrCreate nodes p).1 p).1 = (findOrCreate nodes p).1 ∧
    (findOrCreate nodes p).1.length ≤ nodes.length + 1 ∧
    ∃ n, (findOrCreate nodes p).1[(findOrCreate nodes p).2]? = some n ∧ n.data = p := by
  have hsecond : findOrCreate (findOrCreate nodes p).1 p
      = ((findOrCreate nodes p).1, (findOrCreate nodes p).2) :=
    findOrCreate_eq_of_findIdxD (findIdxD_findOrCreate nodes p)
  refine ⟨by rw [hsecond], by rw [hsecond], ?_, findIdxD_some_spec (findIdxD_findOrCreate nodes p)⟩
  unfold findOrCreate
  cases findIdxD nodes p with
  | some i => exact Nat.le_succ_of_le (Nat.le_refl _)
  | none => simp

/-- C4: `inc` (train_step) is additive: training the same `(from, child)`
pair once with amount `a1` and once with `a2` resolves the same child both
times and leaves the edge weight from the from-node to that child equal to
its initial value plus `a1 + a2` — in particular equal to `a1 + a2` when
the edge did not exist before. -/
theorem train_step_additive (nodes : List (MarkovNode κ)) (i : Nat) (p : κ) (a1 a2 : Nat)
    (hi : i < nodes.length) :
    (inc (inc nodes i p a1).1 i p a2).2 = (inc nodes i p a1).2 ∧
    edgeWeight (inc (inc nodes i p a1).1 i p a2).1 i (inc nodes i p a1).2
      = edgeWeight nodes i (inc nodes i p a1).2 + (a1 + a2) ∧
    (edgeWeight nodes i (inc nodes i p a1).2 = 0 →
      edgeWeight (inc (inc nodes i p a1).1 i p a2).1 i (inc nodes i p a1).2 = a1 + a2) := by
  have hj : (inc nodes i p a1).2 = (findOrCreate nodes p).2 := rfl
  have h1 : (inc nodes i p a1).1 = modifyIdx (findOrCreate nodes p).1 i
      (fun n => ⟨n.data, incEdge n.edges (findOrCreate nodes p).2 a1⟩) := rfl
  have hdata : ((inc nodes i p a1).1).map (fun n => n.data)
      = ((findOrCreate nodes p).1).map (fun n => n.data) := by
    rw [h1]
    exact modifyIdx_map_data _ _ _ (fun n => rfl)
  have hfi : findIdxD (inc nodes i p a1).1 p = some (findOrCreate nodes p).2 := by
    rw [findIdxD_congr hdata p]
    exact findIdxD_findOrCreate nodes p
  have h2 : findOrCreate (inc nodes i p a1).1 p
      = ((inc nodes i p a1).1, (findOrCreate nodes p).2) :=
    findOrCreate_eq_of_findIdxD hfi
  have hgen : ∀ ns1 : List (MarkovNode κ),
      findOrCreate ns1 p = (ns1, (findOrCreate nodes p).2) →
      inc ns1 i p a2 = (modifyIdx ns1 i
        (fun n => ⟨n.data, incEdge n.edges (findOrCreate nodes p).2 a2⟩),
        (findOrCreate nodes p).2) := by
    intro ns1 h
    simp only [inc, h]
  have h3 := hgen _ h2
  have hn : nodes[i]? = some nodes[i] := List.getElem?_eq_getElem hi
  have hfc1i : (findOrCreate nodes p).1[i]? = some nodes[i] := by
    rw [findOrCreate_getElem?_lt p hi]
    exact hn
  have hns1i : (inc nodes i p a1).1[i]?
      = some ⟨nodes[i].data, incEdge nodes[i].edges (findOrCreate nodes p).2 a1⟩ := by
    rw [h1, getElem?_modifyIdx_self, hfc1i]
    rfl
  have hfin : (inc (inc nodes i p a1).1 i p a2).1[i]?
      = some ⟨nodes[i].data,
          incEdge (incEdge nodes[i].edges (findOrCreate nodes p).2 a1)
            (findOrCreate nodes p).2 a2⟩ := by
    rw [h3]
    dsimp only
    rw [getElem?_modifyIdx_self, hns1i]
    rfl
  have hw : edgeWeight (inc (inc nodes i p a1).1 i p a2).1 i (inc nodes i p a1).2
      = edgeWeight nodes i (inc nodes i p a1).2 + (a1 + a2) := by
    rw [hj]
    simp only [edgeWeight, hfin, hn, getWeight_incEdge_self]
    omega
  have hjj : (inc (inc nodes i p a1).1 i p a2).2 = (inc nodes i p a1).2 := by
    rw [h3, hj]
  refine ⟨hjj, hw, fun h0 => ?_⟩
  rw [hw, h0, Nat.zero_add]

/-- C9: An arena built from a single start node by any sequence of
find-or-create and train-step operations never contains two distinct
nodes with equal payloads: the payload map of the arena stays duplicate
free under every training operation. -/
theorem training_preserves_payload_uniqueness (s : κ) (ops : List (TrainOp κ)) :
    ((applyOps [⟨s, []⟩] ops).map (fun n => n.data)).Nodup := by
  suffices H : ∀ (ops : List (TrainOp κ)) (ns : List (MarkovNode κ)),
      (ns.map (fun n => n.data)).Nodup →
      ((applyOps ns ops).map (fun n => n.data)).Nodup by
    exact H ops _ (by simp)
  intro ops
  induction ops with
  | nil => exact fun ns h => h
  | cons op rest ih =>
    intro ns h
    cases op with
    | forc p => exact ih _ (nodup_data_findOrCreate h p)
    | step i p a => exact ih _ (nodup_data_inc h i p a)

/-- Witness for C4 at a concrete input: one start node, training payload
`"a"` with amounts 2 and 3 gives edge weight 5 from node 0 to the created
child. -/
theorem train_step_additive_witness :
    edgeWeight (inc (inc [(⟨"", []⟩ : MarkovNode String)] 0 "a" 2).1 0 "a" 3).1 0
        (inc [(⟨"", []⟩ : MarkovNode String)] 0 "a" 2).2
      = edgeWeight [(⟨"", []⟩ : MarkovNode String)] 0
          (inc [(⟨"", []⟩ : MarkovNode String)] 0 "a" 2).2 + (2 + 3) :=
  (train_step_additive [⟨"", []⟩] 0 "a" 2 3 (by decide)).2.1

theorem iterFrom_none_eq {nodes : List (MarkovNode κ)} {i : Nat}
    (hn : nodes[i]? = none) (rs : List Nat) :
    iterFrom nodes i rs = .error "IndexError" := by
  unfold iterFrom
  rw [hn]

theorem iterFrom_terminal_eq {nodes : List (MarkovNode κ)} {i : Nat} {node : MarkovNode κ}
    (hn : nodes[i]? = some node) (he : node.edges = []) (rs : List Nat) :
    iterFrom nodes i rs = .ok [node.data] := by
  unfold iterFrom
  rw [hn]
  simp [he]

theorem iterFrom_nil_eq {nodes : List (MarkovNode κ)} {i : Nat} {node : MarkovNode κ}
    (hn : nodes[i]? = some node) (hne : node.edges.isEmpty = false) :
    iterFrom nodes i [] = .error "Nonterminating" := by
  unfold iterFrom
  rw [hn]
  simp [hne]

theorem iterFrom_step_eq {nodes : List (MarkovNode κ)} {i : Nat} {node : MarkovNode κ}
    (hn : nodes[i]? = some node) (hne : node.edges.isEmpty = false) (r : Nat) (rs' : List Nat) :
    iterFrom nodes i (r :: rs') =
      match sample node.edges r with
      | .error e => .error e
      | .ok j =>
        match iterFrom nodes j rs' with
        | .error e => .error e
        | .ok rest => .ok (node.data :: rest) := by
  conv_lhs => rw [iterFrom]
  rw [hn]
  simp [hne]

/-- Successful walks end exactly at a childless node: the output is
non-empty and its last element is the payload of a node of the arena with
no outgoing edges. -/
theorem iterFrom_ok_last {nodes : List (MarkovNode κ)} :
    ∀ (rs : List Nat) (i : Nat) (out : List κ), iterFrom nodes i rs = .ok out →
      out ≠ [] ∧ ∃ n, n ∈ nodes ∧ n.edges = [] ∧ out.getLast? = some n.data := by
  intro rs
  induction rs with
  | nil =>
    intro i out hok
    cases hn : nodes[i]? with
    | none => rw [iterFrom_none_eq hn] at hok; exact absurd hok (by simp)
    | some node =>
      by_cases he : node.edges.isEmpty
      · rw [iterFrom_terminal_eq hn (List.isEmpty_iff.mp he)] at hok
        obtain rfl : [node.data] = out := by simpa using hok
        exact ⟨by simp, node, List.getElem?_mem hn, List.isEmpty_iff.mp he, by simp⟩
      · rw [iterFrom_nil_eq hn (eq_false_of_ne_true he)] at hok
        exact absurd hok (by simp)
  | cons r rs' ih =>
    intro i out hok
    cases hn : nodes[i]? with
    | none => rw [iterFrom_none_eq hn] at hok; exact absurd hok (by simp)
    | some node =>
      by_cases he : node.edges.isEmpty
      · rw [iterFrom_terminal_eq hn (List.isEmpty_iff.mp he)] at hok
        obtain rfl : [node.data] = out := by simpa using hok
        exact ⟨by simp, node, List.getElem?_mem hn, List.isEmpty_iff.mp he, by simp⟩
      · rw [iterFrom_step_eq hn (eq_false_of_ne_true he) r rs'] at hok
        cases hs : sample node.edges r with
        | error e => rw [hs] at hok; exact absurd hok (by simp)
        | ok j =>
          rw [hs] at hok
          simp only at hok
          cases hit : iterFrom nodes j rs' with
          | error e => rw [hit] at hok; exact absurd hok (by simp)
          | ok rest =>
            rw [hit] at hok
            obtain rfl : node.data :: rest = out := by simpa using hok
            obtain ⟨hne, n, hmem, hedges, hlast⟩ := ih j rest hit
            refine ⟨by simp, n, hmem, hedges, ?_⟩
            cases rest with
            | nil => exact absurd rfl hne
            | cons x xs => simpa [List.getLast?_cons_cons] using hlast

/-- C2: Every successful output of the random walk ends with the payload
of a childless (terminal) node of the arena, and a walk started at a node
with no outgoing edges returns exactly the single-element sequence of that
node's payload, whatever the random draws. -/
theorem generate_includes_terminal (nodes : List (MarkovNode κ)) (i : Nat) (rs : List Nat) :
    (∀ out, iterFrom nodes i rs = .ok out →
      out ≠ [] ∧ ∃ n, n ∈ nodes ∧ n.edges = [] ∧ out.getLast? = some n.data) ∧
    (∀ node, nodes[i]? = some node → node.edges = [] →
      iterFrom nodes i rs = .ok [node.data]) := by
  exact ⟨fun out hok => iterFrom_ok_last rs i out hok,
    fun node hn he => iterFrom_terminal_eq hn he rs⟩

/-- Demonstration graph for the walk claims: a start node whose single
edge points to a childless node. -/
def demoGraph : List (MarkovNode String) := [⟨"", [(1, 1)]⟩, ⟨"a", []⟩]

/-- Witness for C2 at a concrete input: on `demoGraph`, a walk started at
the terminal node yields exactly its payload, and the walk from the start
node ends at the terminal payload `"a"`. -/
theorem generate_includes_terminal_witness :
    iterFrom demoGraph 1 [] = .ok ["a"] ∧
    ((["", "a"] : List String) ≠ [] ∧
      ∃ n, n ∈ demoGraph ∧ n.edges = [] ∧ (["", "a"] : List String).getLast? = some n.data) :=
  ⟨(generate_includes_terminal demoGraph 1 []).2 ⟨"a", []⟩ rfl rfl,
   (generate_includes_terminal demoGraph 0 [0]).1 ["", "a"] rfl⟩

/-- C6: The weighted draw fails with the EmptyDistribution error exactly
when the total weight is zero — the mapping has no keys or all stored
weights are zero — and whenever some key has positive weight it returns a
key without error. -/
theorem sample_error_iff_total_zero (wm : List (α × Nat)) (r : Nat) :
    (sample wm r = .error "EmptyDistribution" ↔ (wm = [] ∨ ∀ p ∈ wm, p.2 = 0)) ∧
    ((∃ p ∈ wm, 0 < p.2) → ∃ k, sample wm r = .ok k) := by
  have htot := totalWeight_eq_zero_iff wm
  by_cases h : totalWeight wm = 0
  · refine ⟨iff_of_true (by simp [sample, h]) (Or.inr (htot.mp h)), ?_⟩
    rintro ⟨p, hp, hpos⟩
    have := htot.mp h p hp
    omega
  · have hlt : r % totalWeight wm < totalWeight wm := Nat.mod_lt _ (Nat.pos_of_ne_zero h)
    obtain ⟨k, hk⟩ := Option.isSome_iff_exists.mp (pick_isSome_of_lt hlt)
    have hok : sample wm r = .ok k := by simp [sample, h, hk]
    refine ⟨iff_of_false (by simp [hok]) ?_, fun _ => ⟨k, hok⟩⟩
    rintro (rfl | hall)
    · exact h (by simp [totalWeight])
    · exact h (htot.mpr hall)

/-- Witness for C6 at a concrete input: a map with a positive weight
yields a key without error. -/
theorem sample_error_iff_total_zero_witness :
    ∃ k, sample [(("a" : String), 0), ("b", 2)] 3 = .ok k :=
  (sample_error_iff_total_zero [("a", 0), ("b", 2)] 3).2 ⟨("b", 2), by decide, by decide⟩

/-- C7: When the walk is at a node whose edge map is non-empty but whose
weights are all zero, the EmptyDistribution error raised by the draw
surfaces out of the walk; and any error produced by the rest of the walk
after a successful draw propagates out unchanged. -/
theorem walk_surfaces_empty_distribution (nodes : List (MarkovNode κ)) :
    (∀ i node r rs, nodes[i]? = some node → node.edges ≠ [] →
      (∀ p ∈ node.edges, p.2 = 0) →
      iterFrom nodes i (r :: rs) = .error "EmptyDistribution") ∧
    (∀ i node r rs j e, nodes[i]? = some node → node.edges ≠ [] →
      sample node.edges r = .ok j → iterFrom nodes j rs = .error e →
      iterFrom nodes i (r :: rs) = .error e) := by
  constructor
  · intro i node r rs hn hne hzero
    have hs : sample node.edges r = .error "EmptyDistribution" := by
      simp [sample, (totalWeight_eq_zero_iff node.edges).mpr hzero]
    have hee : node.edges.isEmpty = false := by
      simpa [List.isEmpty_iff] using hne
    rw [iterFrom_step_eq hn hee r rs, hs]
  · intro i node r rs j e hn hne hs hit
    have hee : node.edges.isEmpty = false := by
      simpa [List.isEmpty_iff] using hne
    rw [iterFrom_step_eq hn hee r rs, hs]
    simp only
    rw [hit]

/-- Witness for C7 at a concrete input: a single node with one zero-weight
self edge makes the walk fail with the EmptyDistribution error. -/
theorem walk_surfaces_empty_distribution_witness :
    iterFrom [(⟨"x", [(0, 0)]⟩ : MarkovNode String)] 0 [0] = .error "EmptyDistribution" :=
  (walk_surfaces_empty_distribution _).1 0 ⟨"x", [(0, 0)]⟩ 0 [] rfl (by decide) (by decide)

/-- C8: The draw never returns a key that is absent or has stored weight
zero: with the dict's unique keys, any key of weight zero is never the
result of `sample`, whatever the random draw. -/
theorem sample_never_returns_zero_weight (wm : List (α × Nat)) (r : Nat) (k : α)
    (hnd : nodupKeys wm) (h0 : getWeight wm k = 0) : sample wm r ≠ .ok k := by
  intro hok
  unfold sample at hok
  by_cases h : totalWeight wm = 0
  · simp [h] at hok
  · rw [if_neg h] at hok
    cases hp : pick wm (r % totalWeight wm) with
    | none => rw [hp] at hok; exact absurd hok (by simp)
    | some k' =>
      rw [hp] at hok
      obtain rfl : k' = k := by simpa using hok
      obtain ⟨w, hmem, hw⟩ := pick_mem_pos hp
      rw [getWeight, lookupW_of_mem_nodup hnd hmem] at h0
      simp at h0
      omega

/-- Witness for C8 at a concrete input: the zero-weight key `"a"` is never
drawn. -/
theorem sample_never_returns_zero_weight_witness :
    sample [(("a" : String), 0), ("b", 2)] 3 ≠ .ok "a" :=
  sample_never_returns_zero_weight [("a", 0), ("b", 2)] 3 "a"
    (by unfold nodupKeys; decide) (by decide)

/-- A list without duplicates that is contained in an equally long list
without duplicates contains every element of the other list. -/
theorem mem_of_subset_nodup_length {l1 l2 : List α} (h1 : l1.Nodup) (h2 : l2.Nodup)
    (hsub : l1 ⊆ l2) (hlen : l1.length = l2.length) : ∀ x ∈ l2, x ∈ l1 := by
  have hfin : l1.toFinset ⊆ l2.toFinset := by
    intro x hx
    rw [List.mem_toFinset] at hx ⊢
    exact hsub hx
  have hcard : l2.toFinset.card ≤ l1.toFinset.card := by
    rw [List.toFinset_card_of_nodup h1, List.toFinset_card_of_nodup h2]
    omega
  have heq : l1.toFinset = l2.toFinset := Finset.eq_of_subset_of_card_le hfin hcard
  intro x hx
  rw [← List.mem_toFinset, heq, List.mem_toFinset]
  exact hx

/-- With unique keys on both sides, Python's dict equality holds exactly
when the two maps answer every key lookup identically. -/
theorem dictEq_iff_lookup {d1 d2 : List (α × Nat)} (h1 : nodupKeys d1) (h2 : nodupKeys d2) :
    dictEq d1 d2 = true ↔ ∀ k, lookupW d1 k = lookupW d2 k := by
  unfold dictEq
  rw [Bool.and_eq_true, beq_iff_eq, List.all_eq_true]
  constructor
  · rintro ⟨hlen, hall⟩ k
    cases hl : lookupW d1 k with
    | some v =>
      have := hall (k, v) (lookupW_some_mem hl)
      rw [beq_iff_eq] at this
      exact this.symm
    | none =>
      cases hl2 : lookupW d2 k with
      | none => rfl
      | some v =>
        have hk2 : k ∈ d2.map Prod.fst :=
          List.mem_map.mpr ⟨(k, v), lookupW_some_mem hl2, rfl⟩
        have hsub : d1.map Prod.fst ⊆ d2.map Prod.fst := by
          intro a ha
          obtain ⟨⟨a', w⟩, hmem, rfl⟩ := List.mem_map.mp ha
          have hw := hall _ hmem
          rw [beq_iff_eq] at hw
          exact List.mem_map.mpr ⟨(a', w), lookupW_some_mem hw, rfl⟩
        have hlen' : (d1.map Prod.fst).length = (d2.map Prod.fst).length := by
          simp [hlen]
        exact absurd (mem_of_subset_nodup_length h1 h2 hsub hlen' k hk2)
          (lookupW_eq_none_iff.mp hl)
  · intro hk
    refine ⟨?_, ?_⟩
    · have hmemiff : ∀ a, a ∈ d1.map Prod.fst ↔ a ∈ d2.map Prod.fst := by
        intro a
        rw [← not_iff_not, ← lookupW_eq_none_iff, ← lookupW_eq_none_iff, hk a]
      have hperm := (List.perm_ext_iff_of_nodup h1 h2).mpr hmemiff
      simpa using hperm.length_eq
    · intro p hp
      rw [beq_iff_eq, ← hk p.1]
      exact lookupW_of_mem_nodup h1 (by simpa using hp)

/-- A concrete stand-in for Python's string hash, used only to instantiate
the abstract payload hash at concrete inputs (the claims use nothing of it
beyond its being a function of the payload). -/
def lenHash (s : String) : Int := s.length

/-- C5 counterexample: two node objects with equal payload `"a"` — one
with an edge, one without — have equal hashes, yet do not compare equal as
map keys, refuting "hash equal and compare equal as map keys iff payloads
equal"; moreover two fresh nodes with different payloads `"a"`, `"b"` and
empty edge maps do compare equal. -/
theorem node_identity_counterexample :
    ¬ (((nodeHash lenHash ⟨"a", [(0, 1)]⟩ = nodeHash lenHash (⟨"a", []⟩ : MarkovNode String)) ∧
        markovNodeEq (⟨"a", [(0, 1)]⟩ : MarkovNode String) ⟨"a", []⟩ = true) ↔
      (⟨"a", [(0, 1)]⟩ : MarkovNode String).data = (⟨"a", []⟩ : MarkovNode String).data) ∧
    markovNodeEq (⟨"a", []⟩ : MarkovNode String) ⟨"b", []⟩ = true ∧
    (⟨"a", []⟩ : MarkovNode String).data ≠ (⟨"b", []⟩ : MarkovNode String).data := by
  decide

/-- C5 (amended): the hash of a node is derived from its payload — equal
payloads give equal hashes under any payload hash — but equality of nodes
as map keys is the inherited mapping equality: with the dict's unique
keys, two nodes compare equal exactly when their edge maps answer every
lookup identically, independently of the payloads. -/
theorem node_hash_payload_eq_edges (h : κ → Int) (n1 n2 : MarkovNode κ)
    (h1 : nodupKeys n1.edges) (h2 : nodupKeys n2.edges) :
    (n1.data = n2.data → nodeHash h n1 = nodeHash h n2) ∧
    (markovNodeEq n1 n2 = true ↔ ∀ k, lookupW n1.edges k = lookupW n2.edges k) :=
  ⟨fun hd => by simp [nodeHash, hd], dictEq_iff_lookup h1 h2⟩

/-- Witness for the amended C5 at concrete nodes. -/
theorem node_hash_payload_eq_edges_witness :
    ((⟨"a", [(0, 1)]⟩ : MarkovNode String).data = (⟨"a", []⟩ : MarkovNode String).data →
      nodeHash lenHash ⟨"a", [(0, 1)]⟩ = nodeHash lenHash (⟨"a", []⟩ : MarkovNode String)) ∧
    (markovNodeEq (⟨"a", [(0, 1)]⟩ : MarkovNode String) ⟨"a", []⟩ = true ↔
      ∀ k, lookupW [(0, 1)] k = lookupW ([] : List (Nat × Nat)) k) :=
  node_hash_payload_eq_edges lenHash ⟨"a", [(0, 1)]⟩ ⟨"a", []⟩
    (by unfold nodupKeys; decide) (by unfold nodupKeys; decide)

/-- C10 counterexample: querying the weight of an absent key through the
`defaultdict` getitem changes the mapping — the key set grows from
`["a"]` to `["a", "b"]`. -/
theorem get_absent_inserts_counterexample :
    (getItem [(("a" : String), 2)] "b").1 ≠ [("a", 2)] ∧
    (getItem [(("a" : String), 2)] "b").1.map Prod.fst = ["a", "b"] := by
  decide

/-- C10 (amended): reading the weight of a present key leaves the mapping
unchanged and returns the stored weight; reading an absent key appends
that key with weight 0 — the key set grows, but the read value is 0, the
stored weight of every other key is unchanged, and sampling behaviour is
unchanged for every draw. -/
theorem get_frame_effects (wm : List (α × Nat)) (k : α) :
    (k ∈ wm.map Prod.fst → getItem wm k = (wm, getWeight wm k)) ∧
    (k ∉ wm.map Prod.fst →
      (getItem wm k).1 = wm ++ [(k, 0)] ∧
      (getItem wm k).2 = 0 ∧
      (∀ k', k' ≠ k → getWeight (getItem wm k).1 k' = getWeight wm k') ∧
      (∀ r, sample (getItem wm k).1 r = sample wm r)) := by
  constructor
  · intro hk
    cases hl : lookupW wm k with
    | none => exact absurd hk (by simpa using lookupW_eq_none_iff.mp hl)
    | some w =>
      unfold getItem
      rw [hl]
      simp [getWeight, hl]
  · intro hk
    have hl : lookupW wm k = none := lookupW_eq_none_iff.mpr hk
    have happ : (getItem wm k).1 = wm ++ [(k, 0)] := by
      unfold getItem
      rw [hl]
    have hval : (getItem wm k).2 = 0 := by
      unfold getItem
      rw [hl]
    refine ⟨happ, hval, ?_, ?_⟩
    · intro k' hkk
      rw [happ]
      unfold getWeight
      cases hl' : lookupW wm k' with
      | some w => rw [lookupW_append_of_some _ hl']
      | none =>
        rw [lookupW_append_of_none _ hl']
        simp [lookupW, Ne.symm hkk]
    · intro r
      rw [happ]
      have htot : totalWeight (wm ++ [(k, 0)]) = totalWeight wm := by
        simp [totalWeight]
      unfold sample
      rw [htot]
      by_cases h : totalWeight wm = 0
      · simp [h]
      · rw [if_neg h, if_neg h,
          pick_append_of_lt _ (Nat.mod_lt _ (Nat.pos_of_ne_zero h))]

/-- Witness for the amended C10 at a concrete input: reading absent key
`"b"` appends it at weight 0. -/
theorem get_frame_effects_witness :
    (getItem [(("a" : String), 2)] "b").1 = [("a", 2)] ++ [("b", 0)] :=
  ((get_frame_effects [("a", 2)] "b").2 (by decide)).1

end Markov
